import Mathlib

/-!
# BigDataTech: the lesson5 replicated document engine and the lesson3 WAL manager

Shallow embedding of `src/lesson5/db.go` and `src/lesson3/db.go`.

* Go strings are treated as opaque values and embedded as `String`.
* `uint64` transaction ids are embedded as `Nat`; `db.go` only compares and stores them,
  it never does arithmetic on them.
* The JSON-patch package `github.com/evanphx/json-patch/v5` is an external dependency, so
  the engine is parameterised by the two functions it calls from it.
-/

namespace lesson5

/-- The `txn` struct of `lesson5/db.go`. -/
structure txn where
  Payload : String
  Source : String
  Id : Nat
deriving DecidableEq, Repr

/-- The part of the external JSON-patch package used by `manager.apply`:
`jsonpatch.DecodePatch` and `Patch.Apply`, both of which return a value or an error. -/
structure jsonpatch where
  Patch : Type
  Err : Type
  DecodePatch : String → Except Err Patch
  Apply : Patch → String → Except Err String

/-- One goroutine started by the `go func() { for _, ch := range m.repClients { ch <- t } }()`
statement of `apply`. `todo = none` means the goroutine has been started but has not yet
evaluated `range m.repClients`; `todo = some ks` lists the keys the range loop still has to
produce. -/
structure notifier where
  t : txn
  todo : Option (List Nat)
deriving DecidableEq, Repr

/-- The `manager` struct of `lesson5/db.go` together with the run-time objects it owns.

* `snap`, `wal`, `vclock`, `clientId` are the struct fields; `vclock` is the Go map
  `map[string]uint64` (`none` = key absent).
* `repClients` holds the keys of the map `map[int]chan txn`; since `addClient` binds every key
  exactly once to a channel it has just made, the channel of key `k` is called channel `k`.
* `notifiers` are the broadcast goroutines started by `apply`, in start order.
* `chans k` is the sequence of values that have been received from channel `k` so far.

The lock and the intake queue are not state of the sequential model: the queue is the list of
transactions given to `run`. -/
structure manager where
  snap : String
  wal : List txn
  vclock : String → Option Nat
  clientId : Nat
  repClients : List Nat
  notifiers : List notifier
  chans : Nat → List txn

/-- `newManager` of `lesson5/db.go`: snapshot `{}`, empty WAL, empty maps. -/
def newManager : manager :=
  { snap := "\x7b\x7d"
    wal := []
    vclock := fun _ => none
    clientId := 0
    repClients := []
    notifiers := []
    chans := fun _ => [] }

/-- The Go expression `m.vclock[s]`: reading an absent key yields the zero value. -/
def manager.vclockAt (m : manager) (s : String) : Nat :=
  (m.vclock s).getD 0

/-- `manager.apply` of `lesson5/db.go`. It returns the new state and the returned `error`
(`none` for `nil`). -/
def manager.apply (J : jsonpatch) (m : manager) (t : txn) : manager × Option J.Err :=
  if m.vclockAt t.Source ≥ t.Id then
    (m, none)
  else
    match J.DecodePatch t.Payload with
    | .error err => (m, some err)
    | .ok patch =>
      match J.Apply patch m.snap with
      | .error err => (m, some err)
      | .ok applied =>
        ({ m with
            snap := applied
            wal := m.wal ++ [t]
            vclock := fun s => if s = t.Source then some t.Id else m.vclock s
            notifiers := m.notifiers ++ [{ t := t, todo := none }] }, none)

/-- `manager.run` of `lesson5/db.go`: the loop takes the queued transactions one at a time,
applies each and only prints a returned error. -/
def manager.run (J : jsonpatch) (m : manager) (txnQueue : List txn) : manager :=
  txnQueue.foldl (fun acc t => (acc.apply J t).1) m

/-- `manager.getSnap`. -/
def manager.getSnap (m : manager) : String := m.snap

/-- `manager.getVCLock`. -/
def manager.getVCLock (m : manager) : String → Option Nat := m.vclock

/-- `manager.addClient` of `lesson5/db.go`: returns the new state and the triple
(current WAL, client id, channel); the channel is identified by the client id. The map
assignment `m.repClients[id] = make(chan txn)` adds the key unless it is already there and
binds it to a channel from which nothing has been received yet. -/
def manager.addClient (m : manager) : manager × (List txn × Nat × Nat) :=
  ({ m with
      clientId := m.clientId + 1
      repClients :=
        if m.clientId ∈ m.repClients then m.repClients else m.repClients ++ [m.clientId]
      chans := fun k => if k = m.clientId then [] else m.chans k },
   (m.wal, m.clientId, m.clientId))

/-- `manager.removeClient` of `lesson5/db.go`: `delete(m.repClients, id)`. -/
def manager.removeClient (m : manager) (id : Nat) : manager :=
  { m with repClients := m.repClients.filter (fun k => k ≠ id) }

/-- Whether `apply` gets an error for `t` in state `m` from the patch package: the payload does
not decode, or the decoded patch does not apply to the current snapshot. -/
def manager.fails (J : jsonpatch) (m : manager) (t : txn) : Bool :=
  match J.DecodePatch t.Payload with
  | .error _ => true
  | .ok patch =>
    match J.Apply patch m.snap with
    | .error _ => true
    | .ok _ => false

/-- Whether `apply` accepts `t` in state `m`: the transaction is fresh for its source, its
payload decodes and the patch applies to the current snapshot. -/
def manager.accepts (J : jsonpatch) (m : manager) (t : txn) : Bool :=
  decide (m.vclockAt t.Source < t.Id) && !m.fails J t

/-- The document obtained by starting from `doc` and applying, in order, the patch carried by
each entry of a log; `none` when a payload does not decode or a patch does not apply. This is
the replay that the specification compares the snapshot with. -/
def replay (J : jsonpatch) : List txn → String → Option String
  | [], doc => some doc
  | t :: rest, doc =>
    match J.DecodePatch t.Payload with
    | .error _ => none
    | .ok patch =>
      match J.Apply patch doc with
      | .error _ => none
      | .ok applied => replay J rest applied

/-- The ids of the WAL entries of source `s`, in WAL order. -/
def manager.idsOf (m : manager) (s : String) : List Nat :=
  (m.wal.filter (fun e => decide (e.Source = s))).map (fun e => e.Id)

/-- What `apply` maintains about the WAL ids of a source and its sequence-table entry. -/
def walClockInv (m : manager) : Prop :=
  ∀ s : String,
    (m.idsOf s).Pairwise (fun a b => a < b) ∧
      m.vclock s = (m.idsOf s).getLast? ∧
      (∀ i ∈ m.idsOf s, i ≤ m.vclockAt s) ∧
      ∀ i ∈ m.idsOf s, 0 < i

/-! ### Interleaved executions: the engine's method calls and its broadcast goroutines

`apply` starts one goroutine per committed transaction and returns without waiting for it, so
an execution interleaves the method calls with the steps of the goroutines started so far. Go
fixes neither the order in which goroutines run nor the order in which a `range` over a map
produces its keys; a schedule (a list of `action`s) resolves both. Where Go leaves the effect
of changing the map during a range loop open (an entry added during the loop may or may not
be produced), the model takes the outcome in which it is not produced, so every execution of
the model is an execution of the program. In a serial execution (`execSerial`) no method is
called while a loop is in progress and the model has no such choice to make.

`clientId` is a Go `int`; it is only incremented, once per `addClient`, and is a `Nat` here.
-/

/-- The atomic steps of an execution. `apply`, `addClient` and `removeClient` are the method
calls (the first made by the single `run` loop, the other two by connection handlers under the
lock). `start g` is goroutine `g` evaluating `range m.repClients`; `send g c` is goroutine `g`
reaching key `c` of its range loop: its `ch <- t` on the unbuffered channel of `c` completes
when the subscriber loop `for tx := range ch` of `main.go` receives the value. -/
inductive action where
  | apply (t : txn)
  | addClient
  | removeClient (id : Nat)
  | start (g : Nat)
  | send (g : Nat) (c : Nat)
deriving DecidableEq, Repr

/-- Goroutine `g` begins its loop over the keys that `m.repClients` holds at that moment.
Not enabled when there is no such goroutine or it has already begun. -/
def manager.start (m : manager) (g : Nat) : Option manager :=
  match m.notifiers[g]? with
  | some { t := t, todo := none } =>
    some { m with notifiers := m.notifiers.set g { t := t, todo := some m.repClients } }
  | _ => none

/-- Goroutine `g` reaches key `c`. If the entry is still in the map its channel gets `t`,
otherwise (entry deleted before being reached) nothing is sent. Not enabled when `c` is not
among the keys the loop still has to produce. -/
def manager.send (m : manager) (g c : Nat) : Option manager :=
  match m.notifiers[g]? with
  | some { t := t, todo := some ks } =>
    if c ∈ ks then
      some { m with
        notifiers := m.notifiers.set g { t := t, todo := some (ks.erase c) }
        chans := if c ∈ m.repClients then
            fun k => if k = c then m.chans k ++ [t] else m.chans k
          else m.chans }
    else none
  | _ => none

/-- One step of an execution; `none` when the step is not enabled. -/
def manager.step (J : jsonpatch) (m : manager) : action → Option manager
  | .apply t => some (m.apply J t).1
  | .addClient => some m.addClient.1
  | .removeClient id => some (m.removeClient id)
  | .start g => m.start g
  | .send g c => m.send g c

/-- An execution: a schedule of steps run from `m`. -/
def manager.exec (J : jsonpatch) : manager → List action → Option manager
  | m, [] => some m
  | m, a :: rest =>
    match m.step J a with
    | none => none
    | some next => manager.exec J next rest

/-- No broadcast goroutine is unfinished. -/
def manager.idle (m : manager) : Bool :=
  m.notifiers.all (fun n => decide (n.todo = some []))

/-- The method calls among the steps. -/
def action.isCall : action → Bool
  | .apply _ => true
  | .addClient => true
  | .removeClient _ => true
  | .start _ => false
  | .send _ _ => false

/-- A serial execution: an execution in which a method call is only made while no broadcast
goroutine is unfinished, that is, every broadcast is completed before the next call. -/
def manager.execSerial (J : jsonpatch) : manager → List action → Option manager
  | m, [] => some m
  | m, a :: rest =>
    if a.isCall && !m.idle then none
    else
      match m.step J a with
      | none => none
      | some next => manager.execSerial J next rest

/-- The transaction that a step commits to the WAL, if any: the one of an `apply` step that
is accepted. -/
def manager.commitOf (J : jsonpatch) (m : manager) : action → List txn
  | .apply t => if m.accepts J t then [t] else []
  | .addClient => []
  | .removeClient _ => []
  | .start _ => []
  | .send _ _ => []

/-- The transactions that `apply` commits during a schedule run from `m`, in order. -/
def manager.committed (J : jsonpatch) : manager → List action → List txn
  | _, [] => []
  | m, a :: rest =>
    match m.step J a with
    | none => []
    | some next => m.commitOf J a ++ manager.committed J next rest

/-- Whether goroutine `n` has still to reach key `id` of the client map. -/
def notifier.owes (n : notifier) (id : Nat) : Bool :=
  match n.todo with
  | none => true
  | some ks => decide (id ∈ ks)

/-- The transactions whose goroutines have still to reach key `id`, in start order. -/
def manager.owed (m : manager) (id : Nat) : List txn :=
  (m.notifiers.filter (fun n => n.owes id)).map (fun n => n.t)

/-- What every execution maintains about the client map: the registered keys are below
`clientId` and distinct. -/
def keysInv (m : manager) : Prop :=
  (∀ k ∈ m.repClients, k < m.clientId) ∧ m.repClients.Nodup

/-- What serial executions maintain: registered keys are below `clientId` and distinct, only
the goroutine started last can be unfinished, and no range loop has a key twice. -/
def serialInv (m : manager) : Prop :=
  (∀ k ∈ m.repClients, k < m.clientId) ∧ m.repClients.Nodup ∧
    (∀ n ∈ m.notifiers.dropLast, n.todo = some []) ∧
    ∀ n ∈ m.notifiers, ∀ ks, n.todo = some ks → ks.Nodup

/-- What serial executions maintain for the subscriber that was handed the WAL `w0` and the
key `id`: while it is registered, what it was handed, what it has received and what it is
still owed make up the WAL. -/
def subscriberInv (w0 : List txn) (id : Nat) (m : manager) : Prop :=
  id < m.clientId ∧ (id ∈ m.repClients → w0 ++ m.chans id ++ m.owed id = m.wal)

/-! ### A small table of patch-package behaviour, used to evaluate concrete scenarios -/

/-- The patches of the table. -/
inductive demoPatch where
  | addX
  | addY
  | removeX
deriving DecidableEq, Repr

/-- The payload `[{"op":"add","path":"/x","value":1}]`. -/
def payloadAddX : String :=
  "[\x7b\x22op\x22:\x22add\x22,\x22path\x22:\x22/x\x22,\x22value\x22:1\x7d]"

/-- The payload `[{"op":"add","path":"/y","value":2}]`. -/
def payloadAddY : String :=
  "[\x7b\x22op\x22:\x22add\x22,\x22path\x22:\x22/y\x22,\x22value\x22:2\x7d]"

/-- The payload `[{"op":"remove","path":"/x"}]`. -/
def payloadRemoveX : String :=
  "[\x7b\x22op\x22:\x22remove\x22,\x22path\x22:\x22/x\x22\x7d]"

/-- The document `{}`. -/
def docEmpty : String := "\x7b\x7d"

/-- The document `{"x":1}`. -/
def docX : String := "\x7b\x22x\x22:1\x7d"

/-- The document `{"y":2}`. -/
def docY : String := "\x7b\x22y\x22:2\x7d"

/-- The document `{"x":1,"y":2}`. -/
def docXY : String := "\x7b\x22x\x22:1,\x22y\x22:2\x7d"

/-- Decoding on the three payloads above; every other payload is reported as undecodable. -/
def demoDecode (payload : String) : Except String demoPatch :=
  if payload = payloadAddX then .ok .addX
  else if payload = payloadAddY then .ok .addY
  else if payload = payloadRemoveX then .ok .removeX
  else .error "decode"

/-- Patch application on the four documents above (RFC 6902 `add` and `remove` of a member of
the root object); `remove` of a missing member is an error. -/
def demoApply (p : demoPatch) (doc : String) : Except String String :=
  match p with
  | .addX =>
    if doc = docEmpty ∨ doc = docX then .ok docX
    else if doc = docY ∨ doc = docXY then .ok docXY
    else .error "document"
  | .addY =>
    if doc = docEmpty ∨ doc = docY then .ok docY
    else if doc = docX ∨ doc = docXY then .ok docXY
    else .error "document"
  | .removeX =>
    if doc = docX then .ok docEmpty
    else if doc = docXY then .ok docY
    else .error "missing path"

/-- The table packaged as an instance of the patch-package interface. -/
def demo : jsonpatch :=
  { Patch := demoPatch
    Err := String
    DecodePatch := demoDecode
    Apply := demoApply }

end lesson5

namespace lesson3

/-- `MaxWalSize` of `lesson3/db.go`: "max entries count in one wal". -/
def MaxWalSize : Nat := 30

/-- The `wal` struct of `lesson3/db.go`. -/
structure wal where
  index : Nat
  entries : List String
deriving DecidableEq, Repr

/-- The `snapshot` struct of `lesson3/db.go`. -/
structure snapshot where
  index : Nat
  state : String
deriving DecidableEq, Repr

/-- The `txn` struct of `lesson3/db.go`; the `done` channel only signals completion to `put`. -/
structure txn where
  val : String
deriving DecidableEq, Repr

/-- The `manager` struct of `lesson3/db.go`. `actual` is the stored `defaultValue`; `tick` is
the counter captured by the closure that `makeTicker` returns inside `run`. -/
structure manager where
  wals : List wal
  snaps : List snapshot
  actual : String
  tick : Nat
deriving DecidableEq, Repr

/-- The manager built by `startServer` in `lesson3/server.go`: no WALs, no snapshots and
`new(defaultValue)`, the empty string. -/
def startServer : manager :=
  { wals := [], snaps := [], actual := "", tick := 0 }

/-- The events the `select` of `run` waits for: a transaction from the queue, or the
`time.After(SnapInterval)` timer. -/
inductive event where
  | txn (t : txn)
  | snapInterval
deriving DecidableEq, Repr

/-- The `case txn := <-m.txnQueue` branch of `run`. `none` is the run-time panic of an index
out of range. -/
def manager.onTxn (m : manager) (t : txn) : Option manager :=
  let wLen := m.wals.length
  match m.wals[wLen - 1]? with
  | none => none
  | some last =>
    let m1 : manager :=
      if last.entries.length = MaxWalSize then
        { m with wals := m.wals ++ [{ index := m.tick + 1, entries := [] }], tick := m.tick + 1 }
      else m
    match m1.wals[wLen - 1]? with
    | none => none
    | some w =>
      some { m1 with
        wals := m1.wals.set (wLen - 1) { w with entries := w.entries ++ [t.val] }
        actual := t.val }

/-- The `case <-time.After(SnapInterval)` branch of `run`. -/
def manager.onSnapInterval (m : manager) : manager :=
  { m with
    snaps := m.snaps ++ [{ index := m.tick + 1, state := m.actual }]
    wals := m.wals ++ [{ index := m.tick + 2, entries := [] }]
    tick := m.tick + 2 }

/-- One iteration of the `for { select { ... } }` loop of `run`. -/
def manager.onEvent (m : manager) : event → Option manager
  | .txn t => m.onTxn t
  | .snapInterval => some m.onSnapInterval

/-- The loop of `run` over a sequence of events. -/
def manager.loop : manager → List event → Option manager
  | m, [] => some m
  | m, e :: rest =>
    match m.onEvent e with
    | none => none
    | some next => manager.loop next rest

/-- `manager.run` of `lesson3/db.go`: a fresh ticker, the first WAL, then the loop. -/
def manager.run (m : manager) (events : List event) : Option manager :=
  manager.loop
    { m with wals := m.wals ++ [{ index := 0, entries := [] }], tick := 0 } events

/-- `manager.get` of `lesson3/db.go`. -/
def manager.get (m : manager) : String := m.actual

/-- The values of the transactions among a sequence of events, in order. -/
def puts : List event → List String
  | [] => []
  | .txn t :: rest => t.val :: puts rest
  | .snapInterval :: rest => puts rest

end lesson3

namespace lesson5

/-! ### Theorems about the lesson5 engine -/

theorem apply_seen (J : jsonpatch) (m : manager) (t : txn)
    (h : t.Id ≤ m.vclockAt t.Source) : m.apply J t = (m, none) := by
  unfold manager.apply
  simp [h]

theorem apply_rejected (J : jsonpatch) (m : manager) (t : txn)
    (h : m.fails J t = true) : (m.apply J t).1 = m := by
  unfold manager.fails at h
  unfold manager.apply
  split
  · rfl
  · cases hd : J.DecodePatch t.Payload with
    | error e => rfl
    | ok p =>
      simp only [hd] at h ⊢
      cases ha : J.Apply p m.snap with
      | error e => rfl
      | ok d => simp [ha] at h

theorem apply_fresh (J : jsonpatch) (m : manager) (t : txn) (p : J.Patch) (d : String)
    (hid : m.vclockAt t.Source < t.Id) (hd : J.DecodePatch t.Payload = .ok p)
    (ha : J.Apply p m.snap = .ok d) :
    m.apply J t =
      ({ m with
          snap := d
          wal := m.wal ++ [t]
          vclock := fun s => if s = t.Source then some t.Id else m.vclock s
          notifiers := m.notifiers ++ [{ t := t, todo := none }] }, none) := by
  unfold manager.apply
  rw [if_neg (by omega), hd]
  simp only [ha]

/-- C1: a transaction whose id is at most the sequence-table value of its source (absent
source counting as 0) is a no-op: `apply` returns `nil` and the whole engine state, hence the
snapshot, the WAL and the sequence table, is unchanged, whatever the payload is. -/
theorem apply_duplicate_is_noop (J : jsonpatch) (m : manager) (t : txn)
    (h : t.Id ≤ m.vclockAt t.Source) :
    (m.apply J t).2 = none ∧ (m.apply J t).1 = m ∧
      (m.apply J t).1.snap = m.snap ∧ (m.apply J t).1.wal = m.wal ∧
      (m.apply J t).1.vclock = m.vclock := by
  rw [apply_seen J m t h]
  exact ⟨rfl, rfl, rfl, rfl, rfl⟩

/-- The three outcomes of `apply`: the state is returned as it was, or the transaction was
fresh, decoded and applied, and the state is the committed one. -/
theorem apply_cases (J : jsonpatch) (m : manager) (t : txn) :
    (m.apply J t).1 = m ∨
      ∃ p d, m.vclockAt t.Source < t.Id ∧ J.DecodePatch t.Payload = .ok p ∧
        J.Apply p m.snap = .ok d ∧
        m.apply J t =
          ({ m with
              snap := d
              wal := m.wal ++ [t]
              vclock := fun s => if s = t.Source then some t.Id else m.vclock s
              notifiers := m.notifiers ++ [{ t := t, todo := none }] }, none) := by
  by_cases hid : t.Id ≤ m.vclockAt t.Source
  · left; rw [apply_seen J m t hid]
  · cases hd : J.DecodePatch t.Payload with
    | error e =>
      left
      exact apply_rejected J m t (by simp [manager.fails, hd])
    | ok p =>
      cases ha : J.Apply p m.snap with
      | error e =>
        left
        exact apply_rejected J m t (by simp [manager.fails, hd, ha])
      | ok d =>
        right
        exact ⟨p, d, by omega, rfl, ha, apply_fresh J m t p d (by omega) hd ha⟩

theorem run_nil (J : jsonpatch) (m : manager) : m.run J [] = m := rfl

theorem run_cons (J : jsonpatch) (m : manager) (t : txn) (ts : List txn) :
    m.run J (t :: ts) = (m.apply J t).1.run J ts := rfl

theorem run_append (J : jsonpatch) (m : manager) (xs ys : List txn) :
    m.run J (xs ++ ys) = (m.run J xs).run J ys := by
  unfold manager.run
  rw [List.foldl_append]

/-- An invariant of `apply` that holds of the state at the start of a run holds at its end. -/
theorem run_induction (J : jsonpatch) (P : manager → Prop)
    (hstep : ∀ m t, P m → P (m.apply J t).1) (m : manager) (h0 : P m) (ts : List txn) :
    P (m.run J ts) := by
  induction ts generalizing m with
  | nil => exact h0
  | cons t rest ih =>
    rw [run_cons]
    exact ih _ (hstep m t h0)

theorem vclockAt_apply_le (J : jsonpatch) (m : manager) (t : txn) (s : String) :
    m.vclockAt s ≤ (m.apply J t).1.vclockAt s := by
  rcases apply_cases J m t with h | ⟨p, d, hid, -, -, h⟩
  · rw [h]
  · rw [h]
    by_cases hs : s = t.Source
    · subst hs
      simp only [manager.vclockAt, if_true, Option.getD_some] at hid ⊢
      omega
    · simp [manager.vclockAt, hs]

theorem vclockAt_run_le (J : jsonpatch) (m : manager) (ts : List txn) (s : String) :
    m.vclockAt s ≤ (m.run J ts).vclockAt s :=
  run_induction J (fun x => m.vclockAt s ≤ x.vclockAt s)
    (fun x t hx => le_trans hx (vclockAt_apply_le J x t s)) m (le_refl _) ts

/-- C2: a fresh transaction whose payload decodes and whose patch applies to the current
snapshot with result `d` is committed: `apply` returns `nil`, the snapshot becomes `d`, the
WAL gets `t` appended as its last element, the sequence table maps `t.Source` to `t.Id` and
every other source keeps its entry. -/
theorem apply_fresh_commits (J : jsonpatch) (m : manager) (t : txn) (p : J.Patch)
    (d : String) (hid : m.vclockAt t.Source < t.Id)
    (hd : J.DecodePatch t.Payload = .ok p) (ha : J.Apply p m.snap = .ok d) :
    (m.apply J t).2 = none ∧ (m.apply J t).1.snap = d ∧
      (m.apply J t).1.wal = m.wal ++ [t] ∧
      (m.apply J t).1.vclock t.Source = some t.Id ∧
      (m.apply J t).1.vclockAt t.Source = t.Id ∧
      ∀ s, s ≠ t.Source → (m.apply J t).1.vclock s = m.vclock s := by
  rw [apply_fresh J m t p d hid hd ha]
  refine ⟨rfl, rfl, rfl, by simp, by simp [manager.vclockAt], ?_⟩
  intro s hs
  simp [hs]

/-- Scenario A: from the fresh engine the transaction `A`/1 carrying `add /x = 1` gives the
snapshot `{"x":1}` and the sequence table `{"A":1}`. -/
theorem apply_fresh_commits_witness :
    (newManager.apply demo ⟨payloadAddX, "A", 1⟩).2 = none ∧
      (newManager.apply demo ⟨payloadAddX, "A", 1⟩).1.snap = docX ∧
      (newManager.apply demo ⟨payloadAddX, "A", 1⟩).1.wal = [] ++ [⟨payloadAddX, "A", 1⟩] ∧
      (newManager.apply demo ⟨payloadAddX, "A", 1⟩).1.vclock "A" = some 1 ∧
      (newManager.apply demo ⟨payloadAddX, "A", 1⟩).1.vclockAt "A" = 1 ∧
      ∀ s, s ≠ "A" → (newManager.apply demo ⟨payloadAddX, "A", 1⟩).1.vclock s = none :=
  apply_fresh_commits demo newManager ⟨payloadAddX, "A", 1⟩ demoPatch.addX docX
    (by decide) rfl rfl

/-- Scenario B: resubmitting `A`/1 after it has been applied changes nothing. -/
theorem apply_duplicate_is_noop_witness :
    ((newManager.apply demo ⟨payloadAddX, "A", 1⟩).1.apply demo ⟨payloadAddX, "A", 1⟩).2 = none ∧
      ((newManager.apply demo ⟨payloadAddX, "A", 1⟩).1.apply demo ⟨payloadAddX, "A", 1⟩).1 =
        (newManager.apply demo ⟨payloadAddX, "A", 1⟩).1 ∧
      ((newManager.apply demo ⟨payloadAddX, "A", 1⟩).1.apply demo ⟨payloadAddX, "A", 1⟩).1.snap =
        (newManager.apply demo ⟨payloadAddX, "A", 1⟩).1.snap ∧
      ((newManager.apply demo ⟨payloadAddX, "A", 1⟩).1.apply demo ⟨payloadAddX, "A", 1⟩).1.wal =
        (newManager.apply demo ⟨payloadAddX, "A", 1⟩).1.wal ∧
      ((newManager.apply demo ⟨payloadAddX, "A", 1⟩).1.apply demo
          ⟨payloadAddX, "A", 1⟩).1.vclock =
        (newManager.apply demo ⟨payloadAddX, "A", 1⟩).1.vclock :=
  apply_duplicate_is_noop demo (newManager.apply demo ⟨payloadAddX, "A", 1⟩).1
    ⟨payloadAddX, "A", 1⟩ (by decide)

/-- C3: a transaction whose payload does not decode, or whose patch does not apply to the
snapshot current when it is processed, leaves the engine state (snapshot, WAL and sequence
table included) unchanged, and the run loop carries on: a queue containing such a
transaction ends in the same state as the queue with that transaction removed. -/
theorem run_skips_failing_txn (J : jsonpatch) (m : manager) (before after : List txn)
    (t : txn) (h : (m.run J before).fails J t = true) :
    ((m.run J before).apply J t).1 = m.run J before ∧
      ((m.run J before).apply J t).1.snap = (m.run J before).snap ∧
      ((m.run J before).apply J t).1.wal = (m.run J before).wal ∧
      ((m.run J before).apply J t).1.vclock = (m.run J before).vclock ∧
      m.run J (before ++ t :: after) = m.run J (before ++ after) := by
  have hq := apply_rejected J (m.run J before) t h
  refine ⟨hq, by rw [hq], by rw [hq], by rw [hq], ?_⟩
  rw [run_append, run_append, run_cons, hq]

/-- Scenario E and a failing patch: after `A`/1 (`add /x`), an undecodable payload is dropped
and the later `B`/1 (`add /y`) is still applied. -/
theorem run_skips_failing_txn_witness :
    ((newManager.run demo [⟨payloadAddX, "A", 1⟩]).apply demo ⟨"not a patch", "A", 2⟩).1 =
        newManager.run demo [⟨payloadAddX, "A", 1⟩] ∧
      ((newManager.run demo [⟨payloadAddX, "A", 1⟩]).apply demo ⟨"not a patch", "A", 2⟩).1.snap =
        (newManager.run demo [⟨payloadAddX, "A", 1⟩]).snap ∧
      ((newManager.run demo [⟨payloadAddX, "A", 1⟩]).apply demo ⟨"not a patch", "A", 2⟩).1.wal =
        (newManager.run demo [⟨payloadAddX, "A", 1⟩]).wal ∧
      ((newManager.run demo [⟨payloadAddX, "A", 1⟩]).apply demo
          ⟨"not a patch", "A", 2⟩).1.vclock =
        (newManager.run demo [⟨payloadAddX, "A", 1⟩]).vclock ∧
      newManager.run demo
          ([⟨payloadAddX, "A", 1⟩] ++ ⟨"not a patch", "A", 2⟩ :: [⟨payloadAddY, "B", 1⟩]) =
        newManager.run demo ([⟨payloadAddX, "A", 1⟩] ++ [⟨payloadAddY, "B", 1⟩]) :=
  run_skips_failing_txn demo newManager [⟨payloadAddX, "A", 1⟩] [⟨payloadAddY, "B", 1⟩]
    ⟨"not a patch", "A", 2⟩ (by decide)

/-- C5: the sequence-table value of every source after `apply` is at least its value
before, hence it never decreases along a run of applied transactions. -/
theorem vclock_never_decreases (J : jsonpatch) (m : manager) (t : txn) (s : String) :
    m.vclockAt s ≤ (m.apply J t).1.vclockAt s ∧
      ∀ ts : List txn, m.vclockAt s ≤ (m.run J ts).vclockAt s :=
  ⟨vclockAt_apply_le J m t s, fun ts => vclockAt_run_le J m ts s⟩

theorem replay_append (J : jsonpatch) (w : List txn) (t : txn) (doc : String) :
    replay J (w ++ [t]) doc = (replay J w doc).bind (fun d => replay J [t] d) := by
  induction w generalizing doc with
  | nil => rfl
  | cons e rest ih =>
    show replay J (e :: (rest ++ [t])) doc = (replay J (e :: rest) doc).bind _
    rw [replay, replay]
    cases hd : J.DecodePatch e.Payload with
    | error _ => rfl
    | ok p =>
      dsimp only
      cases ha : J.Apply p doc with
      | error _ => rfl
      | ok d => exact ih d

theorem replay_apply (J : jsonpatch) (m : manager) (t : txn) (doc : String)
    (h : replay J m.wal doc = some m.snap) :
    replay J (m.apply J t).1.wal doc = some (m.apply J t).1.snap := by
  rcases apply_cases J m t with hq | ⟨p, d, -, hd, ha, hq⟩
  · rw [hq]; exact h
  · rw [hq]
    simp only []
    rw [replay_append, h]
    simp [replay, hd, ha]

/-- C4: in every state reached from `newManager()` by a sequence of `apply` calls, replaying
the WAL from the empty document `{}` succeeds at every entry and yields the snapshot. -/
theorem snapshot_is_wal_replay (J : jsonpatch) (ts : List txn) :
    replay J (newManager.run J ts).wal docEmpty = some (newManager.run J ts).snap :=
  run_induction J (fun m => replay J m.wal docEmpty = some m.snap)
    (fun m t h => replay_apply J m t docEmpty h) newManager rfl ts

theorem walClockInv_new : walClockInv newManager := by
  intro s
  simp [manager.idsOf, newManager]

theorem walClockInv_apply (J : jsonpatch) (m : manager) (t : txn) (h : walClockInv m) :
    walClockInv (m.apply J t).1 := by
  rcases apply_cases J m t with hq | ⟨p, d, hid, -, -, hq⟩
  · rw [hq]; exact h
  · rw [hq]
    intro s
    obtain ⟨hp, hv, hle, hpos⟩ := h s
    by_cases hs : t.Source = s
    · subst hs
      have hids : manager.idsOf
          { m with
              snap := d
              wal := m.wal ++ [t]
              vclock := fun s => if s = t.Source then some t.Id else m.vclock s
              notifiers := m.notifiers ++ [{ t := t, todo := none }] } t.Source =
          m.idsOf t.Source ++ [t.Id] := by
        simp [manager.idsOf, List.filter_append]
      rw [hids]
      refine ⟨?_, ?_, ?_, ?_⟩
      · rw [List.pairwise_append]
        refine ⟨hp, List.pairwise_singleton _ _, ?_⟩
        intro a ha b hb
        have := hle a ha
        simp only [List.mem_singleton] at hb
        omega
      · simp
      · intro i hi
        simp only [manager.vclockAt, if_true, Option.getD_some]
        rcases List.mem_append.1 hi with hi | hi
        · have := hle i hi
          omega
        · simp only [List.mem_singleton] at hi
          omega
      · intro i hi
        rcases List.mem_append.1 hi with hi | hi
        · exact hpos i hi
        · simp only [List.mem_singleton] at hi
          omega
    · have hs2 : ¬ s = t.Source := fun e => hs e.symm
      have hids : manager.idsOf
          { m with
              snap := d
              wal := m.wal ++ [t]
              vclock := fun s => if s = t.Source then some t.Id else m.vclock s
              notifiers := m.notifiers ++ [{ t := t, todo := none }] } s =
          m.idsOf s := by
        simp [manager.idsOf, List.filter_append, hs]
      rw [hids]
      refine ⟨hp, ?_, ?_, hpos⟩
      · simp only [hs2, if_false]
        exact hv
      · intro i hi
        have := hle i hi
        simpa [manager.vclockAt, hs2] using this

/-- C9: in every state reached from `newManager()` by a sequence of `apply` calls and for
every source `s`, the ids of the WAL entries of `s` are strictly increasing in WAL order, the
sequence-table entry of `s` is the id of the last such entry, which is the highest one, and
the entry is absent (equivalently, reads as 0) exactly when the WAL has no entry of `s`. -/
theorem wal_ids_increase_and_vclock_is_last (J : jsonpatch) (ts : List txn) (s : String) :
    ((newManager.run J ts).idsOf s).Pairwise (fun a b => a < b) ∧
      (newManager.run J ts).vclock s = ((newManager.run J ts).idsOf s).getLast? ∧
      (newManager.run J ts).vclockAt s = (((newManager.run J ts).idsOf s).getLast?).getD 0 ∧
      (∀ i ∈ (newManager.run J ts).idsOf s, i ≤ (newManager.run J ts).vclockAt s) ∧
      ((newManager.run J ts).vclock s = none ↔ (newManager.run J ts).idsOf s = []) ∧
      ((newManager.run J ts).vclockAt s = 0 ↔ (newManager.run J ts).idsOf s = []) := by
  have hinv : walClockInv (newManager.run J ts) :=
    run_induction J walClockInv (fun m t h => walClockInv_apply J m t h) newManager
      walClockInv_new ts
  obtain ⟨hp, hv, hle, hpos⟩ := hinv s
  refine ⟨hp, hv, by rw [manager.vclockAt, hv], hle, ?_, ?_⟩
  · rw [hv]
    exact List.getLast?_eq_none_iff
  · constructor
    · intro h0
      cases hl : (newManager.run J ts).idsOf s with
      | nil => rfl
      | cons a rest =>
        exfalso
        have hm : a ∈ (newManager.run J ts).idsOf s := by rw [hl]; exact List.mem_cons_self _ _
        have h1 := hle a hm
        have h2 := hpos a hm
        omega
    · intro hnil
      rw [manager.vclockAt, hv, hnil]
      rfl

theorem apply_fresh_vclockAt (J : jsonpatch) (m : manager) (t : txn) (p : J.Patch)
    (d : String) (hid : m.vclockAt t.Source < t.Id)
    (hd : J.DecodePatch t.Payload = .ok p) (ha : J.Apply p m.snap = .ok d) :
    (m.apply J t).1.vclockAt t.Source = t.Id := by
  rw [apply_fresh J m t p d hid hd ha]
  simp [manager.vclockAt]

/-- C6: of the transactions of a queue that carry one given (Source, Id) pair at most one
changes the engine state: if applying `t1` changed the state then a later `t2` with the same
source and id leaves the state as it is, whatever was applied in between and whatever the
two payloads are. In particular applying a transaction twice in a row gives the same state
as applying it once. -/
theorem same_source_id_mutates_at_most_once (J : jsonpatch) (m : manager)
    (before between : List txn) (t1 t2 : txn)
    (hsrc : t1.Source = t2.Source) (hid : t1.Id = t2.Id)
    (hchg : ((m.run J before).apply J t1).1 ≠ m.run J before) :
    ((((m.run J before).apply J t1).1.run J between).apply J t2).1 =
        ((m.run J before).apply J t1).1.run J between ∧
      ((m.apply J t1).1.apply J t1).1 = (m.apply J t1).1 := by
  constructor
  · rcases apply_cases J (m.run J before) t1 with hq | ⟨p, d, hlt, hd, ha, -⟩
    · exact absurd hq hchg
    · have h1 := apply_fresh_vclockAt J (m.run J before) t1 p d hlt hd ha
      have h2 := vclockAt_run_le J ((m.run J before).apply J t1).1 between t1.Source
      rw [apply_seen J _ t2 (by rw [← hsrc, ← hid]; omega)]
  · rcases apply_cases J m t1 with hq | ⟨p, d, hlt, hd, ha, -⟩
    · rw [hq, hq]
    · have h1 := apply_fresh_vclockAt J m t1 p d hlt hd ha
      rw [apply_seen J _ t1 (by omega)]

/-- The pair `A`/1 arrives twice, with `B`/1 in between and with a different payload the
second time; only its first occurrence changes the state. -/
theorem same_source_id_mutates_at_most_once_witness :
    ((((newManager.run demo []).apply demo ⟨payloadAddX, "A", 1⟩).1.run demo
          [⟨payloadAddY, "B", 1⟩]).apply demo ⟨payloadRemoveX, "A", 1⟩).1 =
        ((newManager.run demo []).apply demo ⟨payloadAddX, "A", 1⟩).1.run demo
          [⟨payloadAddY, "B", 1⟩] ∧
      ((newManager.apply demo ⟨payloadAddX, "A", 1⟩).1.apply demo ⟨payloadAddX, "A", 1⟩).1 =
        (newManager.apply demo ⟨payloadAddX, "A", 1⟩).1 :=
  same_source_id_mutates_at_most_once demo newManager [] [⟨payloadAddY, "B", 1⟩]
    ⟨payloadAddX, "A", 1⟩ ⟨payloadRemoveX, "A", 1⟩ rfl rfl
    (fun h => absurd (congrArg (fun x => x.wal.length) h) (by decide))

/-! ### Serial and interleaved executions -/

theorem apply_wal (J : jsonpatch) (m : manager) (t : txn) :
    (m.apply J t).1.wal = m.wal ++ (if m.accepts J t = true then [t] else []) := by
  by_cases hid : t.Id ≤ m.vclockAt t.Source
  · rw [apply_seen J m t hid]
    have : m.accepts J t = false := by
      simp only [manager.accepts, Bool.and_eq_false_imp, decide_eq_true_eq]
      intro h; omega
    simp [this]
  · cases hf : m.fails J t with
    | true =>
      rw [apply_rejected J m t hf]
      simp [manager.accepts, hf]
    | false =>
      rcases apply_cases J m t with hq | ⟨p, d, hlt, -, -, hq⟩
      · exfalso
        unfold manager.fails at hf
        unfold manager.apply at hq
        rw [if_neg hid] at hq
        cases hd : J.DecodePatch t.Payload with
        | error e => simp [hd] at hf
        | ok p =>
          simp only [hd] at hf hq
          cases ha : J.Apply p m.snap with
          | error e => simp [ha] at hf
          | ok d =>
            simp only [ha] at hq
            have := congrArg (fun x => x.wal.length) hq
            simp at this
      · rw [hq]
        have : m.accepts J t = true := by
          simp [manager.accepts, hf, hlt]
        simp [this]

theorem start_wal (m next : manager) (g : Nat) (h : m.start g = some next) :
    next.wal = m.wal := by
  unfold manager.start at h
  split at h
  · cases h; rfl
  · cases h

theorem send_wal (m next : manager) (g c : Nat) (h : m.send g c = some next) :
    next.wal = m.wal := by
  unfold manager.send at h
  split at h
  · split at h
    · cases h; rfl
    · cases h
  · cases h

theorem exec_wal (J : jsonpatch) (sched : List action) (m last : manager)
    (h : manager.exec J m sched = some last) :
    last.wal = m.wal ++ manager.committed J m sched := by
  induction sched generalizing m with
  | nil =>
    simp only [manager.exec, Option.some.injEq] at h
    subst h
    simp [manager.committed]
  | cons a rest ih =>
    rw [manager.exec] at h
    rw [manager.committed]
    cases hs : m.step J a with
    | none => simp [hs] at h
    | some next =>
      simp only [hs] at h ⊢
      rw [ih next h]
      cases a with
      | apply t =>
        simp only [manager.step, Option.some.injEq] at hs
        subst hs
        rw [apply_wal, List.append_assoc]
        rfl
      | addClient =>
        simp only [manager.step, Option.some.injEq] at hs
        subst hs
        rfl
      | removeClient id =>
        simp only [manager.step, Option.some.injEq] at hs
        subst hs
        rfl
      | start g =>
        rw [start_wal m next g hs]
        rfl
      | send g c =>
        rw [send_wal m next g c hs]
        rfl

theorem execSerial_exec (J : jsonpatch) (sched : List action) (m last : manager)
    (h : manager.execSerial J m sched = some last) : manager.exec J m sched = some last := by
  induction sched generalizing m with
  | nil => exact h
  | cons a rest ih =>
    rw [manager.execSerial] at h
    rw [manager.exec]
    split at h
    · cases h
    · cases hs : m.step J a with
      | none => simp [hs] at h
      | some next =>
        simp only [hs] at h ⊢
        exact ih next h

theorem unfinished_is_last (l : List notifier)
    (hc : ∀ n ∈ l.dropLast, n.todo = some []) (g : Nat) (n : notifier)
    (hg : l[g]? = some n) (hn : n.todo ≠ some []) :
    ∃ pre, l = pre ++ [n] ∧ g = pre.length ∧ ∀ x ∈ pre, x.todo = some [] := by
  rcases List.eq_nil_or_concat l with rfl | ⟨pre, x, rfl⟩
  · simp at hg
  · rw [List.concat_eq_append] at hc hg ⊢
    rw [List.dropLast_concat] at hc
    by_cases hlt : g < pre.length
    · rw [List.getElem?_append_left hlt] at hg
      exact absurd (hc n (List.getElem?_mem hg)) hn
    · have hlen : g < (pre ++ [x]).length := (List.getElem?_eq_some.1 hg).1
      have hge : g = pre.length := by
        rw [List.length_append, List.length_singleton] at hlen
        omega
      subst hge
      rw [List.getElem?_concat_length] at hg
      cases hg
      exact ⟨pre, rfl, rfl, hc⟩

theorem set_last (pre : List notifier) (n x : notifier) :
    (pre ++ [n]).set pre.length x = pre ++ [x] := by
  induction pre with
  | nil => rfl
  | cons a rest ih =>
    show a :: (rest ++ [n]).set rest.length x = a :: (rest ++ [x])
    rw [ih]

theorem owed_concat (m : manager) (pre : List notifier) (n : notifier) (id : Nat)
    (hpre : ∀ x ∈ pre, x.todo = some []) (hm : m.notifiers = pre ++ [n]) :
    m.owed id = if n.owes id = true then [n.t] else [] := by
  have hnil : pre.filter (fun x => x.owes id) = [] := by
    rw [List.filter_eq_nil_iff]
    intro x hx
    simp [notifier.owes, hpre x hx]
  unfold manager.owed
  rw [hm, List.filter_append, hnil, List.nil_append]
  by_cases ho : n.owes id = true
  · simp [List.filter, ho]
  · simp [List.filter, ho]

theorem idle_owed (m : manager) (id : Nat) (h : m.idle = true) : m.owed id = [] := by
  unfold manager.idle at h
  rw [List.all_eq_true] at h
  unfold manager.owed
  have hnil : m.notifiers.filter (fun x => x.owes id) = [] := by
    rw [List.filter_eq_nil_iff]
    intro x hx
    have := h x hx
    simp only [decide_eq_true_eq] at this
    simp [notifier.owes, this]
  rw [hnil]
  rfl

theorem serialInv_new : serialInv newManager := by
  refine ⟨?_, ?_, ?_, ?_⟩ <;> simp [newManager]

theorem apply_serialInv (J : jsonpatch) (m : manager) (t : txn) (hb : serialInv m)
    (hidle : m.idle = true) : serialInv (m.apply J t).1 := by
  rcases apply_cases J m t with hq | ⟨p, d, -, -, -, hq⟩
  · rw [hq]; exact hb
  · rw [hq]
    obtain ⟨ha, hn, -, hd⟩ := hb
    unfold manager.idle at hidle
    rw [List.all_eq_true] at hidle
    refine ⟨ha, hn, ?_, ?_⟩
    · intro n hmem
      simp only [List.dropLast_concat] at hmem
      simpa using hidle n hmem
    · intro n hmem ks hks
      simp only [List.mem_append, List.mem_singleton] at hmem
      rcases hmem with hmem | hmem
      · exact hd n hmem ks hks
      · subst hmem
        cases hks

theorem apply_subscriberInv (J : jsonpatch) (m : manager) (t : txn) (w0 : List txn)
    (id : Nat) (h : subscriberInv w0 id m) : subscriberInv w0 id (m.apply J t).1 := by
  rcases apply_cases J m t with hq | ⟨p, d, -, -, -, hq⟩
  · rw [hq]; exact h
  · rw [hq]
    obtain ⟨hlt, heq⟩ := h
    refine ⟨hlt, ?_⟩
    intro hreg
    have := heq hreg
    simp only [manager.owed, List.filter_append, List.map_append] at this ⊢
    rw [← List.append_assoc, this]
    simp [List.filter, notifier.owes]

theorem addClient_serialInv (m : manager) (hb : serialInv m) : serialInv m.addClient.1 := by
  obtain ⟨ha, hn, hc, hd⟩ := hb
  have hnot : m.clientId ∉ m.repClients := fun hk => by
    have := ha _ hk
    omega
  refine ⟨?_, ?_, hc, hd⟩
  · intro k hk
    simp only [manager.addClient, hnot, if_false, List.mem_append, List.mem_singleton] at hk ⊢
    rcases hk with hk | hk
    · have := ha k hk
      omega
    · omega
  · simp only [manager.addClient, hnot, if_false]
    rw [List.nodup_append]
    refine ⟨hn, List.nodup_singleton _, ?_⟩
    intro k hk hk2
    simp only [List.mem_singleton] at hk2
    have := ha k hk
    omega

theorem addClient_subscriberInv (m : manager) (w0 : List txn) (id : Nat)
    (h : subscriberInv w0 id m) : subscriberInv w0 id m.addClient.1 := by
  obtain ⟨hlt, heq⟩ := h
  have hne : ¬ id = m.clientId := by omega
  refine ⟨by simp only [manager.addClient]; omega, ?_⟩
  intro hreg
  have hreg2 : id ∈ m.repClients := by
    simp only [manager.addClient] at hreg
    split at hreg
    · exact hreg
    · simpa [hne] using hreg
  have := heq hreg2
  simpa [manager.addClient, manager.owed, hne] using this

theorem removeClient_serialInv (m : manager) (r : Nat) (hb : serialInv m) :
    serialInv (m.removeClient r) := by
  obtain ⟨ha, hn, hc, hd⟩ := hb
  refine ⟨?_, hn.filter _, hc, hd⟩
  intro k hk
  simp only [manager.removeClient, List.mem_filter] at hk
  exact ha k hk.1

theorem removeClient_subscriberInv (m : manager) (r : Nat) (w0 : List txn) (id : Nat)
    (h : subscriberInv w0 id m) : subscriberInv w0 id (m.removeClient r) := by
  obtain ⟨hlt, heq⟩ := h
  refine ⟨hlt, ?_⟩
  intro hreg
  simp only [manager.removeClient, List.mem_filter] at hreg
  exact heq hreg.1

theorem start_shape (m next : manager) (g : Nat) (hb : serialInv m)
    (h : m.start g = some next) :
    ∃ pre t, m.notifiers = pre ++ [{ t := t, todo := none }] ∧
      (∀ x ∈ pre, x.todo = some []) ∧
      next = { m with notifiers := pre ++ [{ t := t, todo := some m.repClients }] } := by
  unfold manager.start at h
  split at h
  · rename_i t hg
    obtain ⟨pre, hl, hlen, hpre⟩ :=
      unfinished_is_last m.notifiers hb.2.2.1 g { t := t, todo := none } hg (by simp)
    refine ⟨pre, t, hl, hpre, ?_⟩
    simp only [Option.some.injEq] at h
    rw [← h, hlen]
    congr 1
    rw [hl, set_last]
  · cases h

theorem send_shape (m next : manager) (g c : Nat) (hb : serialInv m)
    (h : m.send g c = some next) :
    ∃ pre t ks, m.notifiers = pre ++ [{ t := t, todo := some ks }] ∧
      (∀ x ∈ pre, x.todo = some []) ∧ c ∈ ks ∧
      next = { m with
        notifiers := pre ++ [{ t := t, todo := some (ks.erase c) }]
        chans := if c ∈ m.repClients then
            fun k => if k = c then m.chans k ++ [t] else m.chans k
          else m.chans } := by
  unfold manager.send at h
  split at h
  · rename_i t ks hg
    split at h
    · rename_i hc
      have hne : ({ t := t, todo := some ks } : notifier).todo ≠ some [] := by
        intro hnil
        simp only [Option.some.injEq] at hnil
        rw [hnil] at hc
        simp at hc
      obtain ⟨pre, hl, hlen, hpre⟩ :=
        unfinished_is_last m.notifiers hb.2.2.1 g { t := t, todo := some ks } hg hne
      refine ⟨pre, t, ks, hl, hpre, hc, ?_⟩
      simp only [Option.some.injEq] at h
      rw [← h, hlen]
      congr 1
      rw [hl, set_last]
    · cases h
  · cases h

theorem start_serialInv (m next : manager) (g : Nat) (hb : serialInv m)
    (h : m.start g = some next) : serialInv next := by
  obtain ⟨pre, t, hl, hpre, rfl⟩ := start_shape m next g hb h
  obtain ⟨ha, hn, -, hd⟩ := hb
  refine ⟨ha, hn, ?_, ?_⟩
  · intro n hmem
    simp only [List.dropLast_concat] at hmem
    exact hpre n hmem
  · intro n hmem ks hks
    simp only [List.mem_append, List.mem_singleton] at hmem
    rcases hmem with hmem | hmem
    · exact hd n (by rw [hl]; exact List.mem_append_left _ hmem) ks hks
    · subst hmem
      simp only [Option.some.injEq] at hks
      rw [← hks]
      exact hn

theorem start_subscriberInv (m next : manager) (g : Nat) (w0 : List txn) (id : Nat)
    (hb : serialInv m) (h : m.start g = some next) (hsub : subscriberInv w0 id m) :
    subscriberInv w0 id next := by
  obtain ⟨pre, t, hl, hpre, rfl⟩ := start_shape m next g hb h
  obtain ⟨hlt, heq⟩ := hsub
  refine ⟨hlt, ?_⟩
  intro hreg
  have hreg2 : id ∈ m.repClients := hreg
  have h1 := heq hreg2
  rw [owed_concat m pre _ id hpre hl] at h1
  rw [owed_concat _ pre { t := t, todo := some m.repClients } id hpre rfl]
  simpa [notifier.owes, hreg2] using h1

theorem send_serialInv (m next : manager) (g c : Nat) (hb : serialInv m)
    (h : m.send g c = some next) : serialInv next := by
  obtain ⟨pre, t, ks, hl, hpre, hc, rfl⟩ := send_shape m next g c hb h
  obtain ⟨ha, hn, -, hd⟩ := hb
  refine ⟨ha, hn, ?_, ?_⟩
  · intro n hmem
    simp only [List.dropLast_concat] at hmem
    exact hpre n hmem
  · intro n hmem js hjs
    simp only [List.mem_append, List.mem_singleton] at hmem
    rcases hmem with hmem | hmem
    · exact hd n (by rw [hl]; exact List.mem_append_left _ hmem) js hjs
    · subst hmem
      simp only [Option.some.injEq] at hjs
      rw [← hjs]
      exact (hd { t := t, todo := some ks } (by rw [hl]; simp) ks rfl).erase c

theorem send_subscriberInv (m next : manager) (g c : Nat) (w0 : List txn) (id : Nat)
    (hb : serialInv m) (h : m.send g c = some next) (hsub : subscriberInv w0 id m) :
    subscriberInv w0 id next := by
  obtain ⟨pre, t, ks, hl, hpre, hc, rfl⟩ := send_shape m next g c hb h
  have hks : ks.Nodup := hb.2.2.2 { t := t, todo := some ks } (by rw [hl]; simp) ks rfl
  obtain ⟨hlt, heq⟩ := hsub
  refine ⟨hlt, ?_⟩
  intro hreg
  have hreg2 : id ∈ m.repClients := hreg
  have h1 := heq hreg2
  rw [owed_concat m pre _ id hpre hl] at h1
  rw [owed_concat _ pre { t := t, todo := some (ks.erase c) } id hpre rfl]
  by_cases hid : id = c
  · subst hid
    have hnot : id ∉ ks.erase id := fun hmem => ((hks.mem_erase_iff).1 hmem).1 rfl
    simp only [notifier.owes, hc, decide_True, if_true] at h1
    simp only [notifier.owes, hnot, decide_False, hreg2, if_true, List.append_nil]
    simpa [List.append_assoc] using h1
  · have hmem : id ∈ ks.erase c ↔ id ∈ ks := List.mem_erase_of_ne hid
    simp only [notifier.owes, hmem]
    simp only [notifier.owes] at h1
    by_cases hcr : c ∈ m.repClients
    · simpa [hcr, hid] using h1
    · simpa [hcr] using h1

theorem step_inv (J : jsonpatch) (m next : manager) (a : action) (hb : serialInv m)
    (hcall : a.isCall = true → m.idle = true) (h : m.step J a = some next) :
    serialInv next ∧ ∀ w0 id, subscriberInv w0 id m → subscriberInv w0 id next := by
  cases a with
  | apply t =>
    simp only [manager.step, Option.some.injEq] at h
    subst h
    exact ⟨apply_serialInv J m t hb (hcall rfl), fun w0 id hs =>
      apply_subscriberInv J m t w0 id hs⟩
  | addClient =>
    simp only [manager.step, Option.some.injEq] at h
    subst h
    exact ⟨addClient_serialInv m hb, fun w0 id hs => addClient_subscriberInv m w0 id hs⟩
  | removeClient r =>
    simp only [manager.step, Option.some.injEq] at h
    subst h
    exact ⟨removeClient_serialInv m r hb, fun w0 id hs =>
      removeClient_subscriberInv m r w0 id hs⟩
  | start g =>
    exact ⟨start_serialInv m next g hb h, fun w0 id hs =>
      start_subscriberInv m next g w0 id hb h hs⟩
  | send g c =>
    exact ⟨send_serialInv m next g c hb h, fun w0 id hs =>
      send_subscriberInv m next g c w0 id hb h hs⟩

theorem execSerial_inv (J : jsonpatch) (sched : List action) (m last : manager)
    (hb : serialInv m) (h : manager.execSerial J m sched = some last) :
    serialInv last ∧ ∀ w0 id, subscriberInv w0 id m → subscriberInv w0 id last := by
  induction sched generalizing m with
  | nil =>
    simp only [manager.execSerial, Option.some.injEq] at h
    subst h
    exact ⟨hb, fun _ _ hs => hs⟩
  | cons a rest ih =>
    rw [manager.execSerial] at h
    split at h
    · cases h
    · rename_i hguard
      cases hs : m.step J a with
      | none => simp [hs] at h
      | some next =>
        simp only [hs] at h
        have hcall : a.isCall = true → m.idle = true := by
          intro hc
          cases hi : m.idle with
          | true => rfl
          | false => simp [hc, hi] at hguard
        obtain ⟨hb1, hsub1⟩ := step_inv J m next a hb hcall hs
        obtain ⟨hb2, hsub2⟩ := ih next hb1 h
        exact ⟨hb2, fun w0 id hsub => hsub2 w0 id (hsub1 w0 id hsub)⟩

theorem apply_keys (J : jsonpatch) (m : manager) (t : txn) :
    (m.apply J t).1.repClients = m.repClients ∧ (m.apply J t).1.clientId = m.clientId := by
  rcases apply_cases J m t with hq | ⟨p, d, -, -, -, hq⟩
  · rw [hq]; exact ⟨rfl, rfl⟩
  · rw [hq]; exact ⟨rfl, rfl⟩

theorem start_keys (m next : manager) (g : Nat) (h : m.start g = some next) :
    next.repClients = m.repClients ∧ next.clientId = m.clientId := by
  unfold manager.start at h
  split at h
  · cases h; exact ⟨rfl, rfl⟩
  · cases h

theorem send_keys (m next : manager) (g c : Nat) (h : m.send g c = some next) :
    next.repClients = m.repClients ∧ next.clientId = m.clientId := by
  unfold manager.send at h
  split at h
  · split at h
    · cases h; exact ⟨rfl, rfl⟩
    · cases h
  · cases h

theorem keysInv_of_eq (m next : manager) (h : keysInv m)
    (hk : next.repClients = m.repClients ∧ next.clientId = m.clientId) : keysInv next := by
  unfold keysInv
  rw [hk.1, hk.2]
  exact h

theorem keysInv_serialInv (m : manager) (h : serialInv m) : keysInv m := ⟨h.1, h.2.1⟩

theorem serialInv_of_idle (m : manager) (hk : keysInv m) (hidle : m.idle = true) :
    serialInv m := by
  unfold manager.idle at hidle
  rw [List.all_eq_true] at hidle
  have hdone : ∀ n ∈ m.notifiers, n.todo = some [] := fun n hn => by
    simpa using hidle n hn
  refine ⟨hk.1, hk.2, fun n hn => hdone n (List.mem_of_mem_dropLast hn), ?_⟩
  intro n hn ks hks
  rw [hdone n hn] at hks
  cases hks
  exact List.nodup_nil

theorem step_keysInv (J : jsonpatch) (m next : manager) (a : action) (hk : keysInv m)
    (h : m.step J a = some next) : keysInv next := by
  have hfull : serialInv { m with notifiers := [] } :=
    ⟨hk.1, hk.2, fun n hn => by simp at hn, fun n hn => by simp at hn⟩
  cases a with
  | apply t =>
    simp only [manager.step, Option.some.injEq] at h
    subst h
    exact keysInv_of_eq m _ hk (apply_keys J m t)
  | addClient =>
    simp only [manager.step, Option.some.injEq] at h
    subst h
    have hq : keysInv ({ m with notifiers := [] } : manager).addClient.1 :=
      keysInv_serialInv _ (addClient_serialInv _ hfull)
    exact hq
  | removeClient r =>
    simp only [manager.step, Option.some.injEq] at h
    subst h
    have hq : keysInv (({ m with notifiers := [] } : manager).removeClient r) :=
      keysInv_serialInv _ (removeClient_serialInv _ r hfull)
    exact hq
  | start g => exact keysInv_of_eq m next hk (start_keys m next g h)
  | send g c => exact keysInv_of_eq m next hk (send_keys m next g c h)

theorem exec_keysInv (J : jsonpatch) (sched : List action) (m last : manager)
    (hk : keysInv m) (h : manager.exec J m sched = some last) : keysInv last := by
  induction sched generalizing m with
  | nil =>
    simp only [manager.exec, Option.some.injEq] at h
    subst h
    exact hk
  | cons a rest ih =>
    rw [manager.exec] at h
    cases hs : m.step J a with
    | none => simp [hs] at h
    | some next =>
      simp only [hs] at h
      exact ih next (step_keysInv J m next a hk hs) h

/-- Where the order of delivery does hold. After any execution whatever (serial or not), let
a subscriber attach while no broadcast goroutine is unfinished, and let the execution go on
serially, that is with `apply`, `addClient` and `removeClient` only called while no broadcast
is unfinished. Once the broadcasts are complete, a subscriber that is still registered has
received on its channel exactly the transactions committed after its `addClient` call, in
commit order; so the WAL it was handed followed by what it received is the WAL, without gap,
duplicate or reordering. -/
theorem serial_subscriber_receives_wal (J : jsonpatch) (sched1 sched2 : List action)
    (m1 m3 : manager)
    (h1 : manager.exec J newManager sched1 = some m1)
    (hidle1 : m1.idle = true)
    (h2 : manager.execSerial J m1.addClient.1 sched2 = some m3)
    (hidle3 : m3.idle = true)
    (hreg : m1.addClient.2.2.1 ∈ m3.repClients) :
    m1.addClient.2.1 = m1.wal ∧
      m3.chans m1.addClient.2.2.2 = manager.committed J m1.addClient.1 sched2 ∧
      m1.addClient.2.1 ++ m3.chans m1.addClient.2.2.2 = m3.wal := by
  have hb1 : serialInv m1 :=
    serialInv_of_idle m1
      (exec_keysInv J sched1 newManager m1 (keysInv_serialInv _ serialInv_new) h1) hidle1
  have hb2 : serialInv m1.addClient.1 := addClient_serialInv m1 hb1
  have hsub0 : subscriberInv m1.wal m1.clientId m1.addClient.1 := by
    refine ⟨by simp only [manager.addClient]; omega, ?_⟩
    intro _
    have ho : m1.addClient.1.owed m1.clientId = [] := idle_owed _ _ hidle1
    rw [ho]
    simp [manager.addClient]
  have hsub := (execSerial_inv J sched2 m1.addClient.1 m3 hb2 h2).2 m1.wal m1.clientId hsub0
  have heq := hsub.2 hreg
  rw [idle_owed m3 m1.clientId hidle3, List.append_nil] at heq
  have hw := exec_wal J sched2 m1.addClient.1 m3 (execSerial_exec J sched2 _ m3 h2)
  refine ⟨rfl, ?_, heq⟩
  have hw2 : m1.wal ++ m3.chans m1.clientId =
      m1.wal ++ manager.committed J m1.addClient.1 sched2 := by
    rw [heq, hw]
    rfl
  exact List.append_cancel_left hw2

/-- Scenario C in such an execution: two transactions are applied, the second broadcast
overtaking the first (nobody is attached), a subscriber attaches and is handed both, a third
transaction is applied and broadcast; the subscriber then has exactly the three, in order. -/
theorem serial_subscriber_receives_wal_witness :
    ∃ m1 m3,
      manager.exec demo newManager
          [.apply ⟨payloadAddX, "A", 1⟩, .apply ⟨payloadAddY, "A", 2⟩, .start 1, .start 0] =
        some m1 ∧
      manager.execSerial demo m1.addClient.1
          [.apply ⟨payloadRemoveX, "A", 3⟩, .start 2, .send 2 0] = some m3 ∧
      m1.addClient.2.1 = [⟨payloadAddX, "A", 1⟩, ⟨payloadAddY, "A", 2⟩] ∧
      m3.chans m1.addClient.2.2.2 = [⟨payloadRemoveX, "A", 3⟩] ∧
      (m1.addClient.2.1 = m1.wal ∧
        m3.chans m1.addClient.2.2.2 =
          manager.committed demo m1.addClient.1
            [.apply ⟨payloadRemoveX, "A", 3⟩, .start 2, .send 2 0] ∧
        m1.addClient.2.1 ++ m3.chans m1.addClient.2.2.2 = m3.wal) :=
  ⟨_, _, rfl, rfl, by decide, by decide,
    serial_subscriber_receives_wal demo
      [.apply ⟨payloadAddX, "A", 1⟩, .apply ⟨payloadAddY, "A", 2⟩, .start 1, .start 0]
      [.apply ⟨payloadRemoveX, "A", 3⟩, .start 2, .send 2 0] _ _ rfl (by decide) rfl
      (by decide) (by decide)⟩

/-- C7 (the code departs from it): a subscriber attaches to the fresh engine, `A`/1 and
`A`/2 are applied, and the goroutine started by the second `apply` sends before the one
started by the first. All broadcasts are then complete and the subscriber is still
registered; the engine holds the WAL `A`/1, `A`/2 and the snapshot `{"x":1,"y":2}`, but the
subscriber has received `A`/2 before `A`/1, which is not the WAL as of attach followed by
the transactions applied afterwards. A peer engine, which feeds what it receives to its own
`run` loop, applies `A`/2, then drops `A`/1 at the guard "if we have already seen this txn
do nothing", and ends with the WAL `A`/2 and the snapshot `{"y":2}`. -/
theorem interleaved_broadcasts_reorder :
    ∃ m3,
      manager.exec demo newManager.addClient.1
          [.apply ⟨payloadAddX, "A", 1⟩, .apply ⟨payloadAddY, "A", 2⟩,
            .start 1, .send 1 0, .start 0, .send 0 0] = some m3 ∧
      m3.idle = true ∧ newManager.addClient.2.2.1 ∈ m3.repClients ∧
      m3.wal = [⟨payloadAddX, "A", 1⟩, ⟨payloadAddY, "A", 2⟩] ∧
      m3.snap = docXY ∧
      newManager.addClient.2.1 ++ m3.chans newManager.addClient.2.2.2 =
        [⟨payloadAddY, "A", 2⟩, ⟨payloadAddX, "A", 1⟩] ∧
      newManager.addClient.2.1 ++ m3.chans newManager.addClient.2.2.2 ≠ m3.wal ∧
      (newManager.run demo
          (newManager.addClient.2.1 ++ m3.chans newManager.addClient.2.2.2)).wal =
        [⟨payloadAddY, "A", 2⟩] ∧
      (newManager.run demo
          (newManager.addClient.2.1 ++ m3.chans newManager.addClient.2.2.2)).snap = docY :=
  ⟨_, rfl, by decide, by decide, by decide, by decide, by decide, by decide, by decide,
    by decide⟩

/-- A subscriber that attaches after `A`/1 was applied but before its broadcast goroutine has
evaluated the client map is handed `A`/1 in the WAL and receives it again on its channel. -/
theorem attach_before_broadcast_duplicates :
    ∃ m1 m3,
      manager.exec demo newManager [.apply ⟨payloadAddX, "A", 1⟩] = some m1 ∧
      manager.exec demo m1.addClient.1 [.start 0, .send 0 0] = some m3 ∧
      m3.idle = true ∧ m3.wal = [⟨payloadAddX, "A", 1⟩] ∧
      m1.addClient.2.1 ++ m3.chans m1.addClient.2.2.2 =
        [⟨payloadAddX, "A", 1⟩, ⟨payloadAddX, "A", 1⟩] :=
  ⟨_, _, rfl, rfl, by decide, by decide, by decide⟩

end lesson5

/-! ### Theorems about the lesson3 manager -/

namespace lesson3

theorem onTxn_ok (m : manager) (t : txn) (h : m.wals ≠ []) :
    ∃ s, m.onTxn t = some s ∧ s.actual = t.val ∧ s.wals ≠ [] := by
  have hpos : 0 < m.wals.length := List.length_pos.2 h
  have hlt : m.wals.length - 1 < m.wals.length := by omega
  unfold manager.onTxn
  simp only [List.getElem?_eq_getElem hlt]
  by_cases hfull : (m.wals[m.wals.length - 1]).entries.length = MaxWalSize
  · have hlt2 : m.wals.length - 1 <
        (m.wals ++ [({ index := m.tick + 1, entries := [] } : wal)]).length := by
      rw [List.length_append]; omega
    simp only [hfull, if_true, List.getElem?_eq_getElem hlt2]
    refine ⟨_, rfl, rfl, ?_⟩
    intro hnil
    have := congrArg List.length hnil
    simp at this
  · simp only [hfull, if_false, List.getElem?_eq_getElem hlt]
    refine ⟨_, rfl, rfl, ?_⟩
    intro hnil
    have := congrArg List.length hnil
    simp only [List.length_set, List.length_nil] at this
    omega

theorem loop_ok (events : List event) (m : manager) (h : m.wals ≠ []) :
    ∃ s, manager.loop m events = some s ∧ s.wals ≠ [] ∧
      s.actual = ((puts events).getLast?).getD m.actual := by
  induction events generalizing m with
  | nil => exact ⟨m, rfl, h, rfl⟩
  | cons e rest ih =>
    cases e with
    | txn t =>
      obtain ⟨s1, hs1, hact, hw⟩ := onTxn_ok m t h
      obtain ⟨s, hs, hsw, hsa⟩ := ih s1 hw
      refine ⟨s, ?_, hsw, ?_⟩
      · simp only [manager.loop, manager.onEvent, hs1]
        exact hs
      · rw [hsa, hact]
        simp only [puts]
        cases hrest : puts rest with
        | nil => rfl
        | cons a l =>
          rw [List.getLast?_cons_cons, List.getLast?_eq_getLast _ (List.cons_ne_nil a l)]
          rfl
    | snapInterval =>
      have hw : m.onSnapInterval.wals ≠ [] := by
        simp [manager.onSnapInterval]
      obtain ⟨s, hs, hsw, hsa⟩ := ih m.onSnapInterval hw
      exact ⟨s, by simpa only [manager.loop, manager.onEvent] using hs, hsw, hsa⟩

/-- C8: `get` on the manager built by `startServer` returns the empty string, and after the
run loop has processed a sequence of events that contains at least one put transaction
(snapshot timers may occur anywhere in between) the loop has not failed and `get` returns
exactly the value of the last transaction processed. -/
theorem get_returns_last_put (events : List event) (h : puts events ≠ []) :
    startServer.get = "" ∧
      ∃ s, startServer.run events = some s ∧ s.get = (puts events).getLast h := by
  refine ⟨rfl, ?_⟩
  obtain ⟨s, hs, -, hsa⟩ :=
    loop_ok events
      { startServer with
        wals := startServer.wals ++ [{ index := 0, entries := [] }], tick := 0 }
      (by simp)
  refine ⟨s, hs, ?_⟩
  rw [manager.get, hsa, List.getLast?_eq_getLast _ h]
  rfl

/-- TestBasic: `get` is empty, and after a put of the bytes 1, 2, 3 it returns them. -/
theorem get_returns_last_put_witness :
    startServer.get = "" ∧
      ∃ s, startServer.run [event.txn ⟨"\x01\x02\x03"⟩] = some s ∧
        s.get = (puts [event.txn ⟨"\x01\x02\x03"⟩]).getLast (by decide) :=
  get_returns_last_put [event.txn ⟨"\x01\x02\x03"⟩] (by decide)

/-- C10 (the code departs from it): after 31 puts the first WAL holds 31 entries, one more
than `MaxWalSize`, and the WAL created for the 31st entry is empty, because the entry is
appended at the index computed before the new WAL was added. -/
theorem full_wal_gets_one_more_entry :
    MaxWalSize = 30 ∧
      (startServer.run (List.replicate 31 (event.txn ⟨"v"⟩))).map
          (fun s => s.wals.map (fun w => (w.index, w.entries.length))) =
        some [(0, 31), (1, 0)] := by
  decide

end lesson3
